import Mathlib

/-!
Verification of the networkchain light-client repository.

Part 1 embeds the mobile node wrapper (`src/mobile/geth.go`,
`src/mobile/params.go`): configuration normalisation in `NewNode` and the
testnet genesis special-casing.

Part 2 embeds the error-handling control flow of `les.New`
(`src/les/backend.go`).

Part 3 models the four retrieval subsystems (Peer Set, Request Distributor,
Retrieve Manager, Server Pool).  Their implementations are not part of the
source tree here (only `les/backend.go`, which constructs them, is), so they
are modelled from the specification text and verified against it.
-/

namespace NetworkChain

/-! ## Part 1: mobile node wrapper (`src/mobile/geth.go`) -/

/-- Embedding of `NodeConfig` from `src/mobile/geth.go`.  Go `int` fields
become `Int`; the `*Enodes` pointer is abstracted to the number of bootstrap
nodes it holds (`none` for a nil pointer), which is all `NewNode` inspects. -/
structure NodeConfig where
  bootstrapNodes : Option Nat
  maxPeers : Int
  networkChainEnabled : Bool
  networkChainNetworkID : Int
  networkChainGenesis : String
  networkChainDatabaseCache : Int
  networkChainNetStats : String
  whisperEnabled : Bool
  deriving Repr, DecidableEq

/-- Embedding of `defaultNodeConfig` from `src/mobile/geth.go`: the default
values used when fields are missing from the user-specified configuration.
`FoundationBootnodes()` hands back one parsed node per URL in
`params.DiscoveryV5Bootnodes`; its exact length is external, so we record the
bootstrap-node field abstractly as a nonempty list marker via a parameter at
the use sites and keep the scalar defaults literally. -/
def defaultNodeConfig (defaultBootnodes : Nat) : NodeConfig :=
  { bootstrapNodes := some defaultBootnodes
    maxPeers := 25
    networkChainEnabled := true
    networkChainNetworkID := 1
    networkChainGenesis := ""
    networkChainDatabaseCache := 16
    networkChainNetStats := ""
    whisperEnabled := false }

/-- Embedding of the configuration-normalisation prologue of `NewNode`
(`src/mobile/geth.go` lines 100-109): a nil config is replaced by the
defaults, a zero `MaxPeers` is replaced by the default `MaxPeers`, and a nil
or empty bootstrap-node list is replaced by the default list. -/
def normalizeConfig (defaultBootnodes : Nat) (config : Option NodeConfig) : NodeConfig :=
  let config := match config with
    | none => defaultNodeConfig defaultBootnodes
    | some c => c
  let config := if config.maxPeers = 0 then
      { config with maxPeers := (defaultNodeConfig defaultBootnodes).maxPeers }
    else config
  let config := match config.bootstrapNodes with
    | none => { config with bootstrapNodes := (defaultNodeConfig defaultBootnodes).bootstrapNodes }
    | some 0 => { config with bootstrapNodes := (defaultNodeConfig defaultBootnodes).bootstrapNodes }
    | some _ => config
  config

/-- Embedding of the `p2p.Config` literal built by `NewNode`
(`src/mobile/geth.go` lines 116-124), keeping the fields the code sets. -/
structure P2PConfig where
  noDiscovery : Bool
  discoveryV5 : Bool
  bootstrapNodesV5 : Option Nat
  maxPeers : Int
  deriving Repr, DecidableEq

/-- The `p2p.Config` value `NewNode` places in the node configuration, as a
function of the (already normalised) `NodeConfig`. -/
def buildP2PConfig (config : NodeConfig) : P2PConfig :=
  { noDiscovery := true
    discoveryV5 := true
    bootstrapNodesV5 := config.bootstrapNodes
    maxPeers := config.maxPeers }

/-- Embedding of `core.Genesis` as far as `NewNode` manipulates it: the
chain-config pointer field, generic in the external chain-config type. -/
structure Genesis (Cfg : Type) where
  config : Option Cfg
  deriving Repr, DecidableEq

/-- Embedding of the genesis-handling block of `NewNode`
(`src/mobile/geth.go` lines 131-145).  `unmarshal` stands for
`json.Unmarshal` into a fresh `core.Genesis` (external; `none` models a
decoding error), `testnetGenesis` for the string `TestnetGenesis()` returns,
and `testnetChainConfig` for `params.TestnetChainConfig`.  The result is the
final `genesis` pointer together with the possibly rewritten `NodeConfig`. -/
def newNodeGenesisStep {Cfg : Type} (unmarshal : String → Option (Genesis Cfg))
    (testnetGenesis : String) (testnetChainConfig : Cfg) (config : NodeConfig) :
    Except String (Option (Genesis Cfg) × NodeConfig) :=
  if config.networkChainGenesis ≠ "" then
    match unmarshal config.networkChainGenesis with
    | none => .error "invalid genesis spec"
    | some g =>
      if config.networkChainGenesis = testnetGenesis then
        let g := { g with config := some testnetChainConfig }
        let config := if config.networkChainNetworkID = 1 then
            { config with networkChainNetworkID := 3 }
          else config
        .ok (some g, config)
      else
        .ok (some g, config)
  else
    .ok (none, config)

/-! ## Part 2: `les.New` (`src/les/backend.go` lines 77-128) -/

/-- Embedding of the genesis-setup error returned by `core.SetupGenesisBlock`
as `les.New` discriminates it: either a `*params.ConfigCompatError` carrying
its `RewindTo` block number (`uint64`, embedded as `Nat`), or any other
non-nil error, generic in the external error type. -/
inductive GenesisErr (E : Type) where
  | compat (rewindTo : Nat)
  | other (e : E)
  deriving Repr, DecidableEq

/-- Outcomes of the external calls `les.New` makes, in source order:
`eth.CreateDB`, `core.SetupGenesisBlock` (chain config, genesis hash, and a
possibly-nil genesis error), `light.NewLightChain`, and
`NewProtocolManager`.  The calls that cannot fail (peer set, distributor,
relay, server pool, retrieve manager, odr, tx pool, gas-price oracle
construction) need no outcome. -/
structure LesExternals (Cfg Hash E : Type) where
  createDB : Except E Unit
  setupGenesis : Cfg × Hash × Option (GenesisErr E)
  newLightChain : Except E Unit
  newProtocolManager : Except E Unit

/-- Observable effects of a successful `les.New`: the chain configuration it
adopted, the argument of the `blockchain.SetHead` call if one was made, and
the `(genesisHash, chainConfig)` pair passed to `core.WriteChainConfig` if it
was called. -/
structure LesBuild (Cfg Hash : Type) where
  chainConfig : Cfg
  headRewoundTo : Option Nat
  writtenChainConfig : Option (Hash × Cfg)
  deriving Repr, DecidableEq

/-- Embedding of the control flow of `les.New` (`src/les/backend.go` lines
77-128).  A database-creation error aborts; a non-nil genesis error that is
not a `*params.ConfigCompatError` aborts with that error; a light-chain
construction error aborts; a `ConfigCompatError` instead triggers
`SetHead(compat.RewindTo)` followed by `WriteChainConfig(chainDb,
genesisHash, chainConfig)` and construction continues; a protocol-manager
construction error aborts; otherwise the built service is returned. -/
def lesNew {Cfg Hash E : Type} (ext : LesExternals Cfg Hash E) :
    Except E (LesBuild Cfg Hash) :=
  match ext.createDB with
  | .error e => .error e
  | .ok _ =>
    let chainConfig := ext.setupGenesis.1
    let genesisHash := ext.setupGenesis.2.1
    let genesisErr := ext.setupGenesis.2.2
    match genesisErr with
    | some (.other e) => .error e
    | _ =>
      match ext.newLightChain with
      | .error e => .error e
      | .ok _ =>
        let st : LesBuild Cfg Hash :=
          { chainConfig := chainConfig
            headRewoundTo := none
            writtenChainConfig := none }
        let st := match genesisErr with
          | some (.compat r) =>
            { st with
              headRewoundTo := some r
              writtenChainConfig := some (genesisHash, chainConfig) }
          | _ => st
        match ext.newProtocolManager with
        | .error e => .error e
        | .ok _ => .ok st

/-! ## Part 3: the retrieval core, modelled from the specification

The implementations of `newPeerSet`, `newRequestDistributor`,
`newRetrieveManager` and `newServerPool` are not among the source files here
(`src/les/backend.go` only constructs them), so the four subsystems are
modelled from the specification's component design (spec sections 3, 4 and
7) and verified against its stated properties. -/

/-- Modelled from the spec: the Peer Set errors `DuplicatePeer` and
`UnknownPeer` of the error taxonomy (spec section 7); the implementation of
the peer set (`newPeerSet`) is not under `src/`. -/
inductive PeerSetError where
  | duplicatePeer
  | unknownPeer
  deriving Repr, DecidableEq

/-- Modelled from the spec: a connected server peer, reduced to the fields
the Peer Set bookkeeping needs — its stable identifier and its running
quality score used by `bestPeer`; the implementation is not under `src/`. -/
structure Peer where
  id : String
  score : Int
  deriving Repr, DecidableEq

/-- Modelled from the spec: the event published on every Peer Set mutation
so that other components are notified of additions and removals. -/
inductive PeerSetNote where
  | added (id : String)
  | removed (id : String)
  deriving Repr, DecidableEq

/-- Modelled from the spec: the Peer Set — a mapping from peer identifier to
peer, with a log of published subscription events (most recent first); the
implementation (`newPeerSet`) is not under `src/`. -/
structure PeerSet where
  peers : List Peer
  notes : List PeerSetNote
  deriving Repr, DecidableEq

/-- Identifiers currently present in the set. -/
def PeerSet.ids (ps : PeerSet) : List String :=
  ps.peers.map Peer.id

/-- The empty Peer Set. -/
def emptyPeerSet : PeerSet :=
  { peers := [], notes := [] }

/-- Modelled from the spec: `register(peer)` fails with `DuplicatePeer` if
the identifier already exists; otherwise adds the peer and notifies
subscribers. -/
def register (p : Peer) (ps : PeerSet) : Except PeerSetError PeerSet :=
  if p.id ∈ ps.ids then .error .duplicatePeer
  else .ok { peers := p :: ps.peers, notes := .added p.id :: ps.notes }

/-- Modelled from the spec: `unregister(id)` removes the peer if present and
notifies subscribers; fails with `UnknownPeer` if absent. -/
def unregister (i : String) (ps : PeerSet) : Except PeerSetError PeerSet :=
  if i ∈ ps.ids then
    .ok { peers := ps.peers.filter (fun p => p.id ≠ i), notes := .removed i :: ps.notes }
  else .error .unknownPeer

/-- Modelled from the spec: `bestPeer(predicate)` — among the currently
connected peers satisfying the capability predicate, the one with the best
recent score (or none). -/
def bestPeer (pred : Peer → Bool) (ps : PeerSet) : Option Peer :=
  (ps.peers.filter pred).foldl
    (fun best p =>
      match best with
      | none => some p
      | some b => if b.score < p.score then some p else some b)
    none

/-- A register or unregister operation submitted to the Peer Set. -/
inductive PeerSetOp where
  | reg (p : Peer)
  | unreg (i : String)

/-- Applies one operation; a failing operation leaves the set unchanged. -/
def applyPeerSetOp (ps : PeerSet) (op : PeerSetOp) : PeerSet :=
  match op with
  | .reg p =>
    match register p ps with
    | .ok ps2 => ps2
    | .error _ => ps
  | .unreg i =>
    match unregister i ps with
    | .ok ps2 => ps2
    | .error _ => ps

/-- Applies a sequence of operations in order. -/
def applyPeerSetOps (ops : List PeerSetOp) (ps : PeerSet) : PeerSet :=
  ops.foldl applyPeerSetOp ps

/-- Modelled from the spec: one peer's capacity bookkeeping inside the
Request Distributor — the configured maximum (concurrency budget), the
current free capacity, and the outstanding assignments `(request id, cost)`;
the implementation (`newRequestDistributor`) is not under `src/`. -/
structure PeerCap where
  maxCap : Int
  freeCap : Int
  outstanding : List (Nat × Int)
  deriving Repr, DecidableEq

/-- A fresh peer starts with its full budget free. -/
def initPeerCap (m : Int) : PeerCap :=
  { maxCap := m, freeCap := m, outstanding := [] }

/-- First outstanding assignment for a request id, if any. -/
def findReq (r : Nat) : List (Nat × Int) → Option (Nat × Int)
  | [] => none
  | x :: xs => if x.1 = r then some x else findReq r xs

/-- Removes the first outstanding assignment for a request id. -/
def removeReq (r : Nat) : List (Nat × Int) → List (Nat × Int)
  | [] => []
  | x :: xs => if x.1 = r then xs else x :: removeReq r xs

/-- Total cost of the outstanding assignments. -/
def sumCosts (l : List (Nat × Int)) : Int :=
  l.foldr (fun x acc => x.2 + acc) 0

/-- A capacity-accounting event: a request of a given positive cost is
assigned to the peer, or an assigned request completes (by success, failure
or cancellation). -/
inductive CapEvent where
  | assign (reqId : Nat) (cost : Int)
  | complete (reqId : Nat)
  deriving Repr, DecidableEq

/-- Modelled from the spec: capacity accounting of the Request Distributor —
assigning a request decrements the peer's free capacity by the request's
cost (the Distributor only assigns a positive-cost request the peer has the
free capacity for, and never the same request twice), and completion
restores it. -/
def applyCapEvent (s : PeerCap) (e : CapEvent) : PeerCap :=
  match e with
  | .assign r c =>
    if 0 < c ∧ c ≤ s.freeCap ∧ findReq r s.outstanding = none then
      { s with freeCap := s.freeCap - c, outstanding := (r, c) :: s.outstanding }
    else s
  | .complete r =>
    match findReq r s.outstanding with
    | some rc =>
      { s with freeCap := s.freeCap + rc.2, outstanding := removeReq r s.outstanding }
    | none => s

/-- Applies a sequence of capacity events in order. -/
def applyCapEvents (evs : List CapEvent) (s : PeerCap) : PeerCap :=
  evs.foldl applyCapEvent s

/-- Modelled from the spec: the error taxonomy of the retrieval state
machine (spec section 7).  `responseRejected`, `requestTimedOut` and
`noEligiblePeer` exist as classifications inside the core; the theorems
below show they are absorbed and never become the caller-facing result. -/
inductive RetrieveError where
  | retriesExhausted
  | responseRejected (peer : String)
  | requestTimedOut (peer : String)
  | noEligiblePeer
  deriving Repr, DecidableEq

/-- Modelled from the spec: the Retrieve Manager's retry parameters — the
configured bound on distinct-peer attempts and the overall absolute
deadline, measured in abstract scheduling ticks from the submission of the
request. -/
structure RetrieveParams where
  retryBound : Nat
  deadline : Nat
  deriving Repr, DecidableEq

/-- Modelled from the spec: the per-request bookkeeping of the Retrieve
Manager — the peers already attempted (excluded from consideration for a
retry), the number of send attempts made, and the scoring adjustments
published (`+1` for a validated response, `-1` for a rejected one, most
recent first). -/
structure RetrieveState where
  tried : List String
  attempts : Nat
  scoreLog : List (String × Int)
  deriving Repr, DecidableEq

/-- Modelled from the spec: the retrieval state machine of the Retrieve
Manager (`newRetrieveManager` is not under `src/`): per tick, the request is
failed with `RetriesExhausted` once the attempt bound is reached; otherwise
the Distributor's selection function is consulted with the already-tried
peers excluded — no eligible peer keeps the request queued for the next
tick, an eligible peer receives a send attempt whose response the validator
classifies: a validated response is terminal success with a score increase,
a rejected response penalises the peer, excludes it and re-queues the
request.  The fuel argument counts the ticks left until the absolute
deadline, at which the request is failed with `RetriesExhausted`. -/
def retrieveLoop (select : List String → Option String) (validate : String → Bool)
    (p : RetrieveParams) : Nat → RetrieveState → Except RetrieveError String × RetrieveState
  | 0, s => (.error .retriesExhausted, s)
  | fuel + 1, s =>
    if p.retryBound ≤ s.attempts then (.error .retriesExhausted, s)
    else
      match select s.tried with
      | none => retrieveLoop select validate p fuel s
      | some pid =>
        if validate pid then
          (.ok pid,
            { tried := pid :: s.tried
              attempts := s.attempts + 1
              scoreLog := (pid, 1) :: s.scoreLog })
        else
          retrieveLoop select validate p fuel
            { tried := pid :: s.tried
              attempts := s.attempts + 1
              scoreLog := (pid, -1) :: s.scoreLog }

/-- Modelled from the spec: `fetch` — one logical retrieval driven to
completion from a fresh state, bounded by the absolute deadline. -/
def retrieve (select : List String → Option String) (validate : String → Bool)
    (p : RetrieveParams) : Except RetrieveError String × RetrieveState :=
  retrieveLoop select validate p p.deadline { tried := [], attempts := 0, scoreLog := [] }

/-- Modelled from the spec: the request identity used for deduplication —
the request kind and its parameters. -/
structure ReqKey where
  kind : Nat
  params : List Nat
  deriving Repr, DecidableEq

/-- Modelled from the spec: the Retrieve Manager's table of in-flight
requests, each with the callers waiting on it. -/
structure InflightTable where
  inflight : List (ReqKey × List Nat)
  deriving Repr, DecidableEq

/-- The empty in-flight table. -/
def emptyInflightTable : InflightTable :=
  { inflight := [] }

/-- Adds a caller to the waiter list of the first entry for a key. -/
def addWaiter (caller : Nat) (k : ReqKey) : List (ReqKey × List Nat) → List (ReqKey × List Nat)
  | [] => []
  | e :: es => if e.1 = k then (e.1, caller :: e.2) :: es else e :: addWaiter caller k es

/-- Number of in-flight entries for a key. -/
def countKey (k : ReqKey) (l : List (ReqKey × List Nat)) : Nat :=
  (l.filter (fun e => e.1 = k)).length

/-- Modelled from the spec: deduplication in the Retrieve Manager — a fetch
for a (kind, parameters) pair already in flight is coalesced onto the
existing request (no new network round trip); otherwise a single new request
is started.  The boolean reports whether a network round trip was started. -/
def rmSubmit (caller : Nat) (k : ReqKey) (s : InflightTable) : InflightTable × Bool :=
  if countKey k s.inflight ≠ 0 then
    ({ inflight := addWaiter caller k s.inflight }, false)
  else
    ({ inflight := (k, [caller]) :: s.inflight }, true)

/-- First in-flight entry for a key, if any. -/
def findKey (k : ReqKey) : List (ReqKey × List Nat) → Option (ReqKey × List Nat)
  | [] => none
  | e :: es => if e.1 = k then some e else findKey k es

/-- Removes the first in-flight entry for a key. -/
def removeKey (k : ReqKey) : List (ReqKey × List Nat) → List (ReqKey × List Nat)
  | [] => []
  | e :: es => if e.1 = k then es else e :: removeKey k es

/-- Modelled from the spec: delivery of the validated network result for a
request — every coalesced caller receives the same value and the in-flight
entry is retired. -/
def rmDeliver (k : ReqKey) (v : Nat) (s : InflightTable) : InflightTable × List (Nat × Nat) :=
  match findKey k s.inflight with
  | some e => ({ inflight := removeKey k s.inflight }, e.2.map (fun c => (c, v)))
  | none => (s, [])

/-- Modelled from the spec: a candidate peer as the Request Distributor sees
it — identifier, concurrency budget (capacity), current free capacity, and
recent score; the implementation (`newRequestDistributor`) is not under
`src/`. -/
structure DistPeer where
  id : String
  maxCap : Nat
  freeCap : Nat
  score : Int
  deriving Repr, DecidableEq

/-- A peer's current load: the part of its budget in use. -/
def DistPeer.load (p : DistPeer) : Nat :=
  p.maxCap - p.freeCap

/-- A peer's load-to-capacity ratio. -/
def DistPeer.ratio (p : DistPeer) : ℚ :=
  (p.load : ℚ) / (p.maxCap : ℚ)

/-- Modelled from the spec: strict selection preference — a strictly lower
load-to-capacity ratio, ties broken by the better recent score. -/
def PrefP (p q : DistPeer) : Prop :=
  p.ratio < q.ratio ∨ (p.ratio = q.ratio ∧ q.score < p.score)

instance (p q : DistPeer) : Decidable (PrefP p q) := by
  unfold PrefP
  infer_instance

/-- Modelled from the spec: eligibility of a peer for a request — the peer
has free capacity covering the request's cost and the request's `canSend`
predicate accepts it. -/
def eligible (canSend : DistPeer → Bool) (cost : Nat) (p : DistPeer) : Bool :=
  decide (0 < p.freeCap ∧ cost ≤ p.freeCap) && canSend p

/-- Modelled from the spec: the Distributor's peer selection for one request
— among the eligible peers, the one with the lowest current
load-to-capacity ratio, breaking ties by best recent score; `none` when no
peer is eligible. -/
def selectBest (canSend : DistPeer → Bool) (cost : Nat) : List DistPeer → Option DistPeer
  | [] => none
  | p :: ps =>
    match selectBest canSend cost ps with
    | none => if eligible canSend cost p then some p else none
    | some q => if eligible canSend cost p = true ∧ PrefP p q then some p else some q

/-- Modelled from the spec: a Distribution Entry — a request waiting for a
peer, carrying its sequence number (submission order), its cost and its
`canSend` predicate. -/
structure DistEntry where
  seq : Nat
  cost : Nat
  canSend : DistPeer → Bool

/-- Decrements the free capacity of the peer with the given identifier by an
assigned request's cost. -/
def assignCap (i : String) (cost : Nat) (peers : List DistPeer) : List DistPeer :=
  peers.map (fun q => if q.id = i then { q with freeCap := q.freeCap - cost } else q)

/-- Modelled from the spec: the Distributor's re-evaluation pass run on
every peer-set change or request completion — the pending requests are
scanned in submission order (oldest first); each is assigned its selected
peer (whose free capacity is decremented by the request's cost) or, when no
peer is eligible, remains queued.  Returns the assignments made, the
requests still queued, and the updated peers. -/
def rescan : List DistEntry → List DistPeer →
    List (DistEntry × DistPeer) × List DistEntry × List DistPeer
  | [], peers => ([], [], peers)
  | e :: es, peers =>
    match selectBest e.canSend e.cost peers with
    | some p =>
      let rest := rescan es (assignCap p.id e.cost peers)
      ((e, p) :: rest.1, rest.2.1, rest.2.2)
    | none =>
      let rest := rescan es peers
      (rest.1, e :: rest.2.1, rest.2.2)

/-- Modelled from the spec: the states of a Server Pool entry
(spec section 3); the implementation (`newServerPool`) is not under `src/`. -/
inductive PoolState where
  | discovered
  | dialing
  | validating
  | active
  | dropped
  deriving Repr, DecidableEq

/-- Modelled from the spec: a Server Pool entry — a known candidate server
with its state and a record of whether a successful protocol handshake and a
successful trial round-trip have occurred for it. -/
structure PoolEntry where
  addr : String
  state : PoolState
  handshakeOK : Bool
  trialOK : Bool
  deriving Repr, DecidableEq

/-- A freshly discovered candidate. -/
def newPoolEntry (a : String) : PoolEntry :=
  { addr := a, state := .discovered, handshakeOK := false, trialOK := false }

/-- Events driving a Server Pool entry through the admission pipeline and
later re-evaluation. -/
inductive PoolEvent where
  | startDial
  | handshakeDone (ok : Bool)
  | trialDone (ok : Bool)
  | disconnect
  | scoreBelowFloor
  deriving Repr, DecidableEq

/-- Modelled from the spec: the Server Pool admission pipeline and
re-evaluation — dial, then protocol handshake (failure discards the
candidate), then a trial round-trip (failure discards); only after both
succeed does the entry become `active`; an active entry is dropped when the
peer disconnects or its score falls below the floor. -/
def poolStep (e : PoolEntry) (ev : PoolEvent) : PoolEntry :=
  match ev with
  | .startDial =>
    if e.state = .discovered then { e with state := .dialing } else e
  | .handshakeDone ok =>
    if e.state = .dialing then
      if ok then { e with state := .validating, handshakeOK := true }
      else { e with state := .dropped }
    else e
  | .trialDone ok =>
    if e.state = .validating then
      if ok then { e with state := .active, trialOK := true }
      else { e with state := .dropped }
    else e
  | .disconnect =>
    if e.state = .active then { e with state := .dropped } else e
  | .scoreBelowFloor =>
    if e.state = .active then { e with state := .dropped } else e

/-- Runs a candidate through a sequence of pool events. -/
def poolRun (evs : List PoolEvent) (a : String) : PoolEntry :=
  evs.foldl poolStep (newPoolEntry a)

/-- Modelled from the spec: the admission pipeline applied to one discovered
candidate, with the handshake and trial outcomes given by the environment. -/
def vetCandidate (handshake trial : String → Bool) (a : String) : PoolEntry :=
  poolRun [.startDial, .handshakeDone (handshake a), .trialDone (trial a)] a

/-- Modelled from the spec: the candidates promoted to the Peer Set as
`active` after running the admission pipeline on a batch of discovered
addresses. -/
def promoted (handshake trial : String → Bool) (addrs : List String) : List String :=
  addrs.filter (fun a => (vetCandidate handshake trial a).state = .active)

/-! ## Theorems -/

/-- C8: for every NodeConfig whose MaxPeers field is 0, NewNode substitutes
the default value 25 before building the P2P configuration, so the created
node's P2P MaxPeers is 25, not 0 — despite the NodeConfig field
documentation saying that a zero value means only configured static and
trusted peers can connect. -/
theorem newNode_maxPeers_zero_default (db : Nat) (config : NodeConfig)
    (h : config.maxPeers = 0) :
    (buildP2PConfig (normalizeConfig db (some config))).maxPeers = 25 ∧
    (buildP2PConfig (normalizeConfig db (some config))).maxPeers ≠ 0 := by
  rcases hb : config.bootstrapNodes with _ | (_ | n) <;>
    simp [normalizeConfig, buildP2PConfig, defaultNodeConfig, h, hb]

/-- Witness for C8 at a concrete configuration with `MaxPeers = 0`. -/
theorem newNode_maxPeers_zero_default_witness :
    (buildP2PConfig (normalizeConfig 3 (some
      { bootstrapNodes := some 2
        maxPeers := 0
        networkChainEnabled := true
        networkChainNetworkID := 1
        networkChainGenesis := ""
        networkChainDatabaseCache := 16
        networkChainNetStats := ""
        whisperEnabled := false }))).maxPeers = 25 :=
  (newNode_maxPeers_zero_default 3 _ rfl).1

/-- C9: for every NodeConfig whose NetworkChainGenesis string equals the
output of TestnetGenesis(), NewNode overrides the parsed genesis chain
config with the testnet chain config, and if NetworkChainNetworkID is 1 it
silently rewrites it to 3 before registering the light-client service. -/
theorem newNode_testnet_override {Cfg : Type} (unmarshal : String → Option (Genesis Cfg))
    (tg : String) (tcc : Cfg) (config : NodeConfig) (g : Genesis Cfg)
    (hne : tg ≠ "") (hg : config.networkChainGenesis = tg)
    (hu : unmarshal tg = some g) :
    ∃ g2 config2,
      newNodeGenesisStep unmarshal tg tcc config = .ok (some g2, config2) ∧
      g2.config = some tcc ∧
      (config.networkChainNetworkID = 1 → config2.networkChainNetworkID = 3) ∧
      (config.networkChainNetworkID ≠ 1 →
        config2.networkChainNetworkID = config.networkChainNetworkID) := by
  refine ⟨{ g with config := some tcc },
    if config.networkChainNetworkID = 1 then
      { config with networkChainNetworkID := 3 }
    else config, ?_, ?_, ?_, ?_⟩
  · simp [newNodeGenesisStep, hg, hne, hu]
  · rfl
  · intro h1
    simp [h1]
  · intro h1
    simp [h1]

/-- Witness for C9 at a concrete testnet-genesis configuration with network
id 1. -/
theorem newNode_testnet_override_witness :
    ∃ (g2 : Genesis Nat) (config2 : NodeConfig),
      newNodeGenesisStep (fun _ => some { config := none }) "testnet-genesis" 7
        { bootstrapNodes := some 2
          maxPeers := 25
          networkChainEnabled := true
          networkChainNetworkID := 1
          networkChainGenesis := "testnet-genesis"
          networkChainDatabaseCache := 16
          networkChainNetStats := ""
          whisperEnabled := false } = .ok (some g2, config2) ∧
      g2.config = some 7 ∧
      ((1 : Int) = 1 → config2.networkChainNetworkID = 3) ∧
      ((1 : Int) ≠ 1 → config2.networkChainNetworkID = 1) :=
  newNode_testnet_override (fun _ => some { config := none }) "testnet-genesis" 7 _
    { config := none } (by decide) rfl rfl

/-- C10: les.New returns an error whenever SetupGenesisBlock reports a
non-nil genesis error that is not a *params.ConfigCompatError; for a
*params.ConfigCompatError it does not fail but instead rewinds the light
chain to the error's RewindTo block and rewrites the stored chain config,
then continues construction normally. -/
theorem lesNew_genesis_error_handling {Cfg Hash E : Type} (ext : LesExternals Cfg Hash E) :
    (∀ e, ext.createDB = .ok () → ext.setupGenesis.2.2 = some (.other e) →
      lesNew ext = .error e) ∧
    (∀ r, ext.createDB = .ok () → ext.setupGenesis.2.2 = some (.compat r) →
      ext.newLightChain = .ok () → ext.newProtocolManager = .ok () →
      lesNew ext = .ok
        { chainConfig := ext.setupGenesis.1
          headRewoundTo := some r
          writtenChainConfig := some (ext.setupGenesis.2.1, ext.setupGenesis.1) }) := by
  constructor
  · intro e hdb hgen
    simp [lesNew, hdb, hgen]
  · intro r hdb hgen hlc hpm
    simp [lesNew, hdb, hgen, hlc, hpm]

/-- Witness for C10: a concrete non-compat genesis error is returned, and a
concrete compat error leads to a successful build recording the rewind and
the chain-config rewrite. -/
theorem lesNew_genesis_error_handling_witness :
    lesNew
      ({ createDB := .ok ()
         setupGenesis := (11, 22, some (.other 7))
         newLightChain := .ok ()
         newProtocolManager := .ok () } : LesExternals Nat Nat Nat) = .error 7 ∧
    lesNew
      ({ createDB := .ok ()
         setupGenesis := (11, 22, some (.compat 5))
         newLightChain := .ok ()
         newProtocolManager := .ok () } : LesExternals Nat Nat Nat) = .ok
        { chainConfig := 11
          headRewoundTo := some 5
          writtenChainConfig := some (22, 11) } :=
  ⟨(lesNew_genesis_error_handling _).1 7 rfl rfl,
   (lesNew_genesis_error_handling _).2 5 rfl rfl rfl rfl⟩

/-- Helper: the fold inside `bestPeer` only ever produces an element of the
list or its accumulator. -/
theorem bestPeer_fold_mem (l : List Peer) (acc : Option Peer) (p : Peer)
    (h : l.foldl
      (fun best x =>
        match best with
        | none => some x
        | some b => if b.score < x.score then some x else some b)
      acc = some p) :
    p ∈ l ∨ acc = some p := by
  induction l generalizing acc with
  | nil =>
    right
    simpa using h
  | cons x xs ih =>
    simp only [List.foldl_cons] at h
    rcases ih _ h with h2 | h2
    · exact Or.inl (List.mem_cons_of_mem _ h2)
    · match acc with
      | none =>
        simp only [Option.some.injEq] at h2
        exact Or.inl (h2 ▸ List.mem_cons_self x xs)
      | some b =>
        by_cases hs : b.score < x.score
        · simp only [hs, if_pos] at h2
          simp only [Option.some.injEq] at h2
          exact Or.inl (h2 ▸ List.mem_cons_self x xs)
        · simp only [hs, if_neg, not_false_iff] at h2
          exact Or.inr h2

/-- Helper: one Peer Set operation preserves distinctness of identifiers. -/
theorem applyPeerSetOp_nodup (ps : PeerSet) (op : PeerSetOp) (h : ps.ids.Nodup) :
    (applyPeerSetOp ps op).ids.Nodup := by
  cases op with
  | reg p =>
    by_cases hm : p.id ∈ ps.ids
    · simpa [applyPeerSetOp, register, hm] using h
    · simp only [applyPeerSetOp, register, hm, if_neg, not_false_iff]
      simp only [PeerSet.ids, List.map_cons, List.nodup_cons]
      exact ⟨by simpa [PeerSet.ids] using hm, h⟩
  | unreg i =>
    by_cases hm : i ∈ ps.ids
    · simp only [applyPeerSetOp, unregister, hm, if_pos]
      exact h.sublist ((ps.peers.filter_sublist).map Peer.id)
    · simpa [applyPeerSetOp, unregister, hm] using h

/-- Helper: a sequence of Peer Set operations preserves distinctness of
identifiers. -/
theorem applyPeerSetOps_nodup (ops : List PeerSetOp) (ps : PeerSet) (h : ps.ids.Nodup) :
    (applyPeerSetOps ops ps).ids.Nodup := by
  induction ops generalizing ps with
  | nil => simpa [applyPeerSetOps] using h
  | cons op ops ih =>
    simp only [applyPeerSetOps, List.foldl_cons]
    exact ih _ (applyPeerSetOp_nodup ps op h)

/-- C4: for every sequence of register and unregister operations, the Peer
Set never contains two entries with the same peer identifier: register fails
with DuplicatePeer when the identifier already exists and otherwise adds the
peer and notifies subscribers; and bestPeer never returns a peer that is not
currently registered. -/
theorem peerSet_registration_invariants (ops : List PeerSetOp) :
    ((applyPeerSetOps ops emptyPeerSet).ids).Nodup ∧
    (∀ pred p, bestPeer pred (applyPeerSetOps ops emptyPeerSet) = some p →
      p ∈ (applyPeerSetOps ops emptyPeerSet).peers) ∧
    (∀ p, p.id ∈ (applyPeerSetOps ops emptyPeerSet).ids →
      register p (applyPeerSetOps ops emptyPeerSet) = .error .duplicatePeer) ∧
    (∀ p, p.id ∉ (applyPeerSetOps ops emptyPeerSet).ids →
      register p (applyPeerSetOps ops emptyPeerSet) = .ok
        { peers := p :: (applyPeerSetOps ops emptyPeerSet).peers
          notes := .added p.id :: (applyPeerSetOps ops emptyPeerSet).notes }) := by
  refine ⟨applyPeerSetOps_nodup ops emptyPeerSet (by simp [emptyPeerSet, PeerSet.ids]),
    ?_, ?_, ?_⟩
  · intro pred p h
    rcases bestPeer_fold_mem _ _ _ h with h2 | h2
    · exact List.mem_of_mem_filter h2
    · cases h2
  · intro p h
    simp [register, h]
  · intro p h
    simp [register, h]

/-- Witness for C4 on a concrete operation sequence: identifiers stay
distinct and re-registering an existing identifier fails with
DuplicatePeer. -/
theorem peerSet_registration_invariants_witness :
    ((applyPeerSetOps [.reg { id := "a", score := 0 }] emptyPeerSet).ids).Nodup ∧
    register { id := "a", score := 5 }
      (applyPeerSetOps [.reg { id := "a", score := 0 }] emptyPeerSet) =
      .error .duplicatePeer :=
  ⟨(peerSet_registration_invariants [.reg { id := "a", score := 0 }]).1,
   (peerSet_registration_invariants [.reg { id := "a", score := 0 }]).2.2.1
     { id := "a", score := 5 } (by decide)⟩

/-- Helper: unfolding of `sumCosts` on a cons cell. -/
theorem sumCosts_cons (x : Nat × Int) (l : List (Nat × Int)) :
    sumCosts (x :: l) = x.2 + sumCosts l :=
  rfl

/-- Helper: a found outstanding assignment is in the list with the searched
request id. -/
theorem findReq_eq_some (r : Nat) (l : List (Nat × Int)) (rc : Nat × Int)
    (h : findReq r l = some rc) :
    rc ∈ l ∧ rc.1 = r := by
  induction l with
  | nil => cases h
  | cons x xs ih =>
    by_cases hx : x.1 = r
    · simp only [findReq, hx, if_pos, Option.some.injEq] at h
      exact ⟨h ▸ List.mem_cons_self x xs, h ▸ hx⟩
    · simp only [findReq, hx, if_neg, not_false_iff] at h
      exact ⟨List.mem_cons_of_mem _ (ih h).1, (ih h).2⟩

/-- Helper: removing the found assignment subtracts exactly its cost from
the outstanding total. -/
theorem sumCosts_removeReq (r : Nat) (l : List (Nat × Int)) (rc : Nat × Int)
    (h : findReq r l = some rc) :
    sumCosts (removeReq r l) = sumCosts l - rc.2 := by
  induction l with
  | nil => cases h
  | cons x xs ih =>
    by_cases hx : x.1 = r
    · simp only [findReq, hx, if_pos, Option.some.injEq] at h
      subst h
      simp only [removeReq, hx, if_pos, sumCosts_cons]
      omega
    · simp only [findReq, hx, if_neg, not_false_iff] at h
      simp only [removeReq, hx, if_neg, not_false_iff, sumCosts_cons, ih h]
      omega

/-- Helper: removal only drops elements. -/
theorem mem_removeReq (r : Nat) (l : List (Nat × Int)) (x : Nat × Int)
    (h : x ∈ removeReq r l) :
    x ∈ l := by
  induction l with
  | nil => cases h
  | cons y ys ih =>
    by_cases hy : y.1 = r
    · simp only [removeReq, hy, if_pos] at h
      exact List.mem_cons_of_mem _ h
    · simp only [removeReq, hy, if_neg, not_false_iff, List.mem_cons] at h
      rcases h with h | h
      · exact h ▸ List.mem_cons_self y ys
      · exact List.mem_cons_of_mem _ (ih h)

/-- Helper: outstanding totals of positive costs are nonnegative. -/
theorem sumCosts_nonneg (l : List (Nat × Int)) (h : ∀ rc ∈ l, 0 < rc.2) :
    0 ≤ sumCosts l := by
  induction l with
  | nil => simp [sumCosts]
  | cons x xs ih =>
    rw [sumCosts_cons]
    have hx := h x (List.mem_cons_self x xs)
    have hxs := ih (fun rc hrc => h rc (List.mem_cons_of_mem _ hrc))
    omega

/-- Helper: one capacity event preserves the accounting invariant — the
budget is unchanged, free capacity plus the outstanding total equals the
budget, free capacity stays nonnegative, and outstanding costs stay
positive. -/
theorem applyCapEvent_preserves (s : PeerCap) (e : CapEvent)
    (h1 : s.freeCap + sumCosts s.outstanding = s.maxCap)
    (h2 : 0 ≤ s.freeCap)
    (h3 : ∀ rc ∈ s.outstanding, 0 < rc.2) :
    (applyCapEvent s e).maxCap = s.maxCap ∧
    (applyCapEvent s e).freeCap + sumCosts (applyCapEvent s e).outstanding = s.maxCap ∧
    0 ≤ (applyCapEvent s e).freeCap ∧
    ∀ rc ∈ (applyCapEvent s e).outstanding, 0 < rc.2 := by
  cases e with
  | assign r c =>
    by_cases hc : 0 < c ∧ c ≤ s.freeCap ∧ findReq r s.outstanding = none
    · obtain ⟨hc1, hc2, hc3⟩ := hc
      have he : applyCapEvent s (.assign r c) =
          { s with freeCap := s.freeCap - c, outstanding := (r, c) :: s.outstanding } := by
        simp [applyCapEvent, hc1, hc2, hc3]
      rw [he]
      refine ⟨rfl, ?_, ?_, ?_⟩
      · show s.freeCap - c + sumCosts ((r, c) :: s.outstanding) = s.maxCap
        rw [sumCosts_cons]
        omega
      · show 0 ≤ s.freeCap - c
        omega
      · intro rc hrc
        rcases List.mem_cons.mp hrc with h | h
        · exact h ▸ hc1
        · exact h3 rc h
    · have he : applyCapEvent s (.assign r c) = s := by
        simp only [applyCapEvent, if_neg hc]
      rw [he]
      exact ⟨rfl, h1, h2, h3⟩
  | complete r =>
    rcases hf : findReq r s.outstanding with _ | rc
    · have he : applyCapEvent s (.complete r) = s := by
        simp [applyCapEvent, hf]
      rw [he]
      exact ⟨rfl, h1, h2, h3⟩
    · have hmem := findReq_eq_some r s.outstanding rc hf
      have hsum := sumCosts_removeReq r s.outstanding rc hf
      have hpos := h3 rc hmem.1
      have he : applyCapEvent s (.complete r) =
          { s with freeCap := s.freeCap + rc.2, outstanding := removeReq r s.outstanding } := by
        simp [applyCapEvent, hf]
      rw [he]
      refine ⟨rfl, ?_, ?_, ?_⟩
      · show s.freeCap + rc.2 + sumCosts (removeReq r s.outstanding) = s.maxCap
        rw [hsum]
        omega
      · show 0 ≤ s.freeCap + rc.2
        omega
      · intro x hx
        exact h3 x (mem_removeReq r s.outstanding x hx)

/-- Helper: a sequence of capacity events preserves the accounting
invariant. -/
theorem applyCapEvents_preserves (evs : List CapEvent) (s : PeerCap)
    (h1 : s.freeCap + sumCosts s.outstanding = s.maxCap)
    (h2 : 0 ≤ s.freeCap)
    (h3 : ∀ rc ∈ s.outstanding, 0 < rc.2) :
    (applyCapEvents evs s).maxCap = s.maxCap ∧
    (applyCapEvents evs s).freeCap + sumCosts (applyCapEvents evs s).outstanding = s.maxCap ∧
    0 ≤ (applyCapEvents evs s).freeCap ∧
    ∀ rc ∈ (applyCapEvents evs s).outstanding, 0 < rc.2 := by
  induction evs generalizing s with
  | nil => exact ⟨rfl, h1, h2, h3⟩
  | cons e evs ih =>
    have hstep := applyCapEvent_preserves s e h1 h2 h3
    have hrest := ih (applyCapEvent s e)
      (hstep.1 ▸ hstep.2.1) hstep.2.2.1 hstep.2.2.2
    simp only [applyCapEvents, List.foldl_cons] at hrest ⊢
    exact ⟨hrest.1.trans hstep.1, (hstep.1 ▸ hrest.2.1 : _), hrest.2.2⟩

/-- C3: for every peer and every sequence of distributor assign and complete
events, the peer's free capacity never goes negative and never exceeds its
configured maximum: assigning a request decrements free capacity by the
request's cost, and completion restores it. -/
theorem peerCap_bounds (m : Int) (hm : 0 ≤ m) (evs : List CapEvent) :
    (0 ≤ (applyCapEvents evs (initPeerCap m)).freeCap ∧
      (applyCapEvents evs (initPeerCap m)).freeCap ≤ m) ∧
    (∀ r c, 0 < c → c ≤ (applyCapEvents evs (initPeerCap m)).freeCap →
      findReq r (applyCapEvents evs (initPeerCap m)).outstanding = none →
      (applyCapEvent (applyCapEvents evs (initPeerCap m)) (.assign r c)).freeCap =
        (applyCapEvents evs (initPeerCap m)).freeCap - c) ∧
    (∀ r rc, findReq r (applyCapEvents evs (initPeerCap m)).outstanding = some rc →
      (applyCapEvent (applyCapEvents evs (initPeerCap m)) (.complete r)).freeCap =
        (applyCapEvents evs (initPeerCap m)).freeCap + rc.2) := by
  have h0 : (initPeerCap m).freeCap + sumCosts (initPeerCap m).outstanding =
      (initPeerCap m).maxCap := by
    simp [initPeerCap, sumCosts]
  have hinv := applyCapEvents_preserves evs (initPeerCap m) h0 hm
    (by intro rc hrc; cases hrc)
  have hmax : (applyCapEvents evs (initPeerCap m)).maxCap = m := hinv.1
  have hsum := sumCosts_nonneg _ hinv.2.2.2
  refine ⟨⟨hinv.2.2.1, by omega⟩, ?_, ?_⟩
  · intro r c hc hle hnone
    simp [applyCapEvent, hc, hle, hnone]
  · intro r rc hf
    simp [applyCapEvent, hf]

/-- Witness for C3 on a concrete event sequence against a budget of 10. -/
theorem peerCap_bounds_witness :
    0 ≤ (applyCapEvents [.assign 1 4, .assign 2 3, .complete 1]
      (initPeerCap 10)).freeCap ∧
    (applyCapEvents [.assign 1 4, .assign 2 3, .complete 1]
      (initPeerCap 10)).freeCap ≤ 10 :=
  (peerCap_bounds 10 (by decide) [.assign 1 4, .assign 2 3, .complete 1]).1

/-- Helper: when the validator rejects every response and the Distributor
only offers peers not yet tried, the retrieval loop ends in
`RetriesExhausted`, keeps tried peers distinct, and makes one attempt per
tried peer, within the retry bound and the remaining fuel. -/
theorem retrieveLoop_alwaysReject (select : List String → Option String)
    (validate : String → Bool) (p : RetrieveParams)
    (hv : ∀ pid, validate pid = false)
    (hsel : ∀ ex q, select ex = some q → q ∉ ex) :
    ∀ (fuel : Nat) (s : RetrieveState), s.tried.Nodup → s.attempts ≤ p.retryBound →
      s.tried.length = s.attempts →
      (retrieveLoop select validate p fuel s).1 = .error .retriesExhausted ∧
      (retrieveLoop select validate p fuel s).2.tried.Nodup ∧
      (retrieveLoop select validate p fuel s).2.attempts ≤ p.retryBound ∧
      (retrieveLoop select validate p fuel s).2.tried.length =
        (retrieveLoop select validate p fuel s).2.attempts ∧
      (retrieveLoop select validate p fuel s).2.attempts ≤ s.attempts + fuel := by
  intro fuel
  induction fuel with
  | zero =>
    intro s h1 h2 h3
    exact ⟨rfl, h1, h2, h3, Nat.le_add_right _ _⟩
  | succ fuel ih =>
    intro s h1 h2 h3
    by_cases hb : p.retryBound ≤ s.attempts
    · have he : retrieveLoop select validate p (fuel + 1) s = (.error .retriesExhausted, s) := by
        simp only [retrieveLoop, if_pos hb]
      rw [he]
      exact ⟨rfl, h1, h2, h3, Nat.le_add_right _ _⟩
    · rcases hs : select s.tried with _ | pid
      · have he : retrieveLoop select validate p (fuel + 1) s =
            retrieveLoop select validate p fuel s := by
          simp only [retrieveLoop, if_neg hb, hs]
        rw [he]
        have h := ih s h1 h2 h3
        have h5 : (retrieveLoop select validate p fuel s).2.attempts ≤ s.attempts + fuel :=
          h.2.2.2.2
        exact ⟨h.1, h.2.1, h.2.2.1, h.2.2.2.1, by omega⟩
      · have hfresh := hsel _ _ hs
        have hval := hv pid
        have he : retrieveLoop select validate p (fuel + 1) s =
            retrieveLoop select validate p fuel
              { tried := pid :: s.tried
                attempts := s.attempts + 1
                scoreLog := (pid, -1) :: s.scoreLog } := by
          simp only [retrieveLoop, if_neg hb, hs, hval, Bool.false_eq_true, if_false]
        rw [he]
        have h := ih
          { tried := pid :: s.tried
            attempts := s.attempts + 1
            scoreLog := (pid, -1) :: s.scoreLog }
          (List.nodup_cons.mpr ⟨hfresh, h1⟩)
          (by show s.attempts + 1 ≤ p.retryBound; omega)
          (by show (pid :: s.tried).length = s.attempts + 1; simp [h3])
        have h5 : (retrieveLoop select validate p fuel
            { tried := pid :: s.tried
              attempts := s.attempts + 1
              scoreLog := (pid, -1) :: s.scoreLog }).2.attempts ≤ s.attempts + 1 + fuel :=
          h.2.2.2.2
        exact ⟨h.1, h.2.1, h.2.2.1, h.2.2.2.1, by omega⟩

/-- C1: for every request whose validator rejects every response, the
Retrieve Manager retries it on distinct peers up to the configured retry
bound (or until the overall absolute deadline, whichever comes first) and
then terminates with the RetriesExhausted error surfaced to the caller; the
fetch never hangs indefinitely (the loop is total and its attempts are
bounded by both the retry bound and the deadline). -/
theorem retrieve_alwaysReject_retriesExhausted (select : List String → Option String)
    (validate : String → Bool) (p : RetrieveParams)
    (hv : ∀ pid, validate pid = false)
    (hsel : ∀ ex q, select ex = some q → q ∉ ex) :
    (retrieve select validate p).1 = .error .retriesExhausted ∧
    (retrieve select validate p).2.tried.Nodup ∧
    (retrieve select validate p).2.attempts ≤ p.retryBound ∧
    (retrieve select validate p).2.attempts ≤ p.deadline ∧
    (retrieve select validate p).2.tried.length = (retrieve select validate p).2.attempts := by
  have h := retrieveLoop_alwaysReject select validate p hv hsel p.deadline
    { tried := [], attempts := 0, scoreLog := [] } (List.nodup_nil) (Nat.zero_le _) rfl
  have h5 : (retrieve select validate p).2.attempts ≤ 0 + p.deadline := h.2.2.2.2
  exact ⟨h.1, h.2.1, h.2.2.1, by omega, h.2.2.2.1⟩

/-- Witness for C1: a single always-rejecting peer, retry bound 2, deadline
3 — the fetch terminates with RetriesExhausted. -/
theorem retrieve_alwaysReject_retriesExhausted_witness :
    (retrieve (fun ex => if "a" ∈ ex then none else some "a") (fun _ => false)
      { retryBound := 2, deadline := 3 }).1 = .error .retriesExhausted :=
  (retrieve_alwaysReject_retriesExhausted
    (fun ex => if "a" ∈ ex then none else some "a") (fun _ => false)
    { retryBound := 2, deadline := 3 }
    (fun _ => rfl)
    (by
      intro ex q h
      by_cases hm : "a" ∈ ex
      · simp [hm] at h
      · simp [hm] at h
        exact h ▸ hm)).1

/-- Helper: whatever the selection function and validator do, the retrieval
loop's caller-facing result is a validated success or `RetriesExhausted`,
and every rejected attempt is translated into a score penalty in the log. -/
theorem retrieveLoop_boundary (select : List String → Option String)
    (validate : String → Bool) (p : RetrieveParams) :
    ∀ (fuel : Nat) (s : RetrieveState),
      (∀ q ∈ s.tried, (q, if validate q then (1 : Int) else -1) ∈ s.scoreLog) →
      (∀ err, (retrieveLoop select validate p fuel s).1 = .error err →
        err = .retriesExhausted) ∧
      (∀ pid, (retrieveLoop select validate p fuel s).1 = .ok pid →
        validate pid = true) ∧
      (∀ q ∈ (retrieveLoop select validate p fuel s).2.tried,
        (q, if validate q then (1 : Int) else -1) ∈
          (retrieveLoop select validate p fuel s).2.scoreLog) := by
  intro fuel
  induction fuel with
  | zero =>
    intro s hlog
    refine ⟨?_, ?_, hlog⟩
    · intro err herr
      cases herr
      rfl
    · intro pid hok
      cases hok
  | succ fuel ih =>
    intro s hlog
    by_cases hb : p.retryBound ≤ s.attempts
    · simp only [retrieveLoop, if_pos hb]
      refine ⟨?_, ?_, hlog⟩
      · intro err herr
        cases herr
        rfl
      · intro pid hok
        cases hok
    · rcases hs : select s.tried with _ | pid
      · simp only [retrieveLoop, if_neg hb, hs]
        exact ih s hlog
      · rcases hval : validate pid with _ | _
        · simp only [retrieveLoop, if_neg hb, hs, hval, Bool.false_eq_true, if_false]
          refine ih _ ?_
          intro q hq
          rcases List.mem_cons.mp hq with h | h
          · subst h
            simp [hval]
          · exact List.mem_cons_of_mem _ (hlog q h)
        · simp only [retrieveLoop, if_neg hb, hs, hval, if_true]
          refine ⟨?_, ?_, ?_⟩
          · intro err herr
            cases herr
          · intro pid2 hok
            cases hok
            exact hval
          · intro q hq
            rcases List.mem_cons.mp hq with h | h
            · subst h
              simp [hval]
            · exact List.mem_cons_of_mem _ (hlog q h)

/-- C6: for every fetch call, the only error that crosses the caller-facing
boundary of the Retrieve Manager is RetriesExhausted (misuse errors arise
only from the Peer Set operations); rejected responses are absorbed and
translated into score penalties in the log, never surfaced to the caller,
and a returned value always comes from a validated response. -/
theorem retrieve_error_boundary (select : List String → Option String)
    (validate : String → Bool) (p : RetrieveParams) :
    (∀ err, (retrieve select validate p).1 = .error err → err = .retriesExhausted) ∧
    (∀ pid, (retrieve select validate p).1 = .ok pid → validate pid = true) ∧
    (∀ q ∈ (retrieve select validate p).2.tried,
      (q, if validate q then (1 : Int) else -1) ∈
        (retrieve select validate p).2.scoreLog) :=
  retrieveLoop_boundary select validate p p.deadline
    { tried := [], attempts := 0, scoreLog := [] } (by intro q hq; cases hq)

/-- Witness for C6: in a concrete run with an always-rejecting validator the
single rejected peer's penalty appears in the scoring log. -/
theorem retrieve_error_boundary_witness :
    ("a", (-1 : Int)) ∈
      (retrieve (fun ex => if "a" ∈ ex then none else some "a") (fun _ => false)
        { retryBound := 1, deadline := 2 }).2.scoreLog := by
  have h := (retrieve_error_boundary
    (fun ex => if "a" ∈ ex then none else some "a") (fun _ => false)
    { retryBound := 1, deadline := 2 }).2.2 "a" (by decide)
  simpa using h

/-- Helper: an entry for the key at the head increases its in-flight count
by one. -/
theorem countKey_cons_self (k : ReqKey) (w : List Nat) (l : List (ReqKey × List Nat)) :
    countKey k ((k, w) :: l) = countKey k l + 1 := by
  simp [countKey]

/-- C2: for every two concurrent fetch calls with identical (kind,
parameters), the Retrieve Manager coalesces them so that exactly one request
is in flight (one network round trip), and both callers receive the same
result. -/
theorem rmSubmit_dedup (s : InflightTable) (k : ReqKey) (c1 c2 : Nat)
    (h : countKey k s.inflight = 0) :
    (rmSubmit c1 k s).2 = true ∧
    (rmSubmit c2 k (rmSubmit c1 k s).1).2 = false ∧
    countKey k (rmSubmit c2 k (rmSubmit c1 k s).1).1.inflight = 1 ∧
    (∀ v, (c1, v) ∈ (rmDeliver k v (rmSubmit c2 k (rmSubmit c1 k s).1).1).2 ∧
      (c2, v) ∈ (rmDeliver k v (rmSubmit c2 k (rmSubmit c1 k s).1).1).2) := by
  have h1 : rmSubmit c1 k s = ({ inflight := (k, [c1]) :: s.inflight }, true) := by
    simp [rmSubmit, h]
  have h2 : rmSubmit c2 k { inflight := (k, [c1]) :: s.inflight } =
      ({ inflight := (k, [c2, c1]) :: s.inflight }, false) := by
    simp [rmSubmit, countKey_cons_self, addWaiter]
  refine ⟨?_, ?_, ?_, ?_⟩
  · simp [h1]
  · simp [h1, h2]
  · simp [h1, h2, countKey_cons_self, h]
  · intro v
    simp [h1, h2, rmDeliver, findKey]

/-- Witness for C2: two fetches of the same key against the empty table —
one round trip, one in-flight entry, both callers delivered the value. -/
theorem rmSubmit_dedup_witness :
    (rmSubmit 10 { kind := 1, params := [2] } emptyInflightTable).2 = true ∧
    (rmSubmit 20 { kind := 1, params := [2] }
      (rmSubmit 10 { kind := 1, params := [2] } emptyInflightTable).1).2 = false ∧
    countKey { kind := 1, params := [2] }
      (rmSubmit 20 { kind := 1, params := [2] }
        (rmSubmit 10 { kind := 1, params := [2] } emptyInflightTable).1).1.inflight = 1 ∧
    (∀ v, (10, v) ∈ (rmDeliver { kind := 1, params := [2] } v
        (rmSubmit 20 { kind := 1, params := [2] }
          (rmSubmit 10 { kind := 1, params := [2] } emptyInflightTable).1).1).2 ∧
      (20, v) ∈ (rmDeliver { kind := 1, params := [2] } v
        (rmSubmit 20 { kind := 1, params := [2] }
          (rmSubmit 10 { kind := 1, params := [2] } emptyInflightTable).1).1).2) :=
  rmSubmit_dedup emptyInflightTable { kind := 1, params := [2] } 10 20 rfl

/-- Helper: one pool event preserves the admission invariant — an `active`
entry has passed the handshake and the trial, and a `validating` entry has
passed the handshake. -/
theorem poolStep_inv (e : PoolEntry) (ev : PoolEvent)
    (h1 : e.state = .active → e.handshakeOK = true ∧ e.trialOK = true)
    (h2 : e.state = .validating → e.handshakeOK = true) :
    ((poolStep e ev).state = .active →
      (poolStep e ev).handshakeOK = true ∧ (poolStep e ev).trialOK = true) ∧
    ((poolStep e ev).state = .validating → (poolStep e ev).handshakeOK = true) := by
  cases ev with
  | startDial =>
    by_cases hs : e.state = .discovered
    · have he : poolStep e .startDial = { e with state := .dialing } := by
        simp [poolStep, hs]
      rw [he]
      exact ⟨fun h => by simp at h, fun h => by simp at h⟩
    · have he : poolStep e .startDial = e := by simp [poolStep, hs]
      rw [he]
      exact ⟨h1, h2⟩
  | handshakeDone ok =>
    by_cases hs : e.state = .dialing
    · cases ok
      · have he : poolStep e (.handshakeDone false) = { e with state := .dropped } := by
          simp [poolStep, hs]
        rw [he]
        exact ⟨fun h => by simp at h, fun h => by simp at h⟩
      · have he : poolStep e (.handshakeDone true) =
            { e with state := .validating, handshakeOK := true } := by
          simp [poolStep, hs]
        rw [he]
        exact ⟨fun h => by simp at h, fun _ => rfl⟩
    · have he : poolStep e (.handshakeDone ok) = e := by simp [poolStep, hs]
      rw [he]
      exact ⟨h1, h2⟩
  | trialDone ok =>
    by_cases hs : e.state = .validating
    · cases ok
      · have he : poolStep e (.trialDone false) = { e with state := .dropped } := by
          simp [poolStep, hs]
        rw [he]
        exact ⟨fun h => by simp at h, fun h => by simp at h⟩
      · have he : poolStep e (.trialDone true) =
            { e with state := .active, trialOK := true } := by
          simp [poolStep, hs]
        rw [he]
        exact ⟨fun _ => ⟨h2 hs, rfl⟩, fun h => by simp at h⟩
    · have he : poolStep e (.trialDone ok) = e := by simp [poolStep, hs]
      rw [he]
      exact ⟨h1, h2⟩
  | disconnect =>
    by_cases hs : e.state = .active
    · have he : poolStep e .disconnect = { e with state := .dropped } := by
        simp [poolStep, hs]
      rw [he]
      exact ⟨fun h => by simp at h, fun h => by simp at h⟩
    · have he : poolStep e .disconnect = e := by simp [poolStep, hs]
      rw [he]
      exact ⟨h1, h2⟩
  | scoreBelowFloor =>
    by_cases hs : e.state = .active
    · have he : poolStep e .scoreBelowFloor = { e with state := .dropped } := by
        simp [poolStep, hs]
      rw [he]
      exact ⟨fun h => by simp at h, fun h => by simp at h⟩
    · have he : poolStep e .scoreBelowFloor = e := by simp [poolStep, hs]
      rw [he]
      exact ⟨h1, h2⟩

/-- Helper: the admission invariant holds after any sequence of pool events
from any entry satisfying it. -/
theorem poolSteps_inv (evs : List PoolEvent) (e : PoolEntry)
    (h1 : e.state = .active → e.handshakeOK = true ∧ e.trialOK = true)
    (h2 : e.state = .validating → e.handshakeOK = true) :
    ((evs.foldl poolStep e).state = .active →
      (evs.foldl poolStep e).handshakeOK = true ∧ (evs.foldl poolStep e).trialOK = true) ∧
    ((evs.foldl poolStep e).state = .validating →
      (evs.foldl poolStep e).handshakeOK = true) := by
  induction evs generalizing e with
  | nil => exact ⟨h1, h2⟩
  | cons ev evs ih =>
    simp only [List.foldl_cons]
    have h := poolStep_inv e ev h1 h2
    exact ih (poolStep e ev) h.1 h.2

/-- Helper: the admission pipeline promotes a candidate exactly when both
its handshake and its trial round-trip succeed. -/
theorem vetCandidate_active (handshake trial : String → Bool) (a : String) :
    ((vetCandidate handshake trial a).state = .active) ↔
      (handshake a && trial a) = true := by
  rcases hh : handshake a with _ | _ <;> rcases ht : trial a with _ | _ <;>
    simp [vetCandidate, poolRun, poolStep, newPoolEntry, hh, ht]

/-- C7: for every Server Pool entry and every reachable pool state, the
entry is in state active only after a successful protocol handshake and at
least one successful trial round-trip have occurred for it; candidates that
fail the handshake are discarded and never promoted to the Peer Set as
active. -/
theorem serverPool_active_requires_handshake :
    (∀ evs a, (poolRun evs a).state = .active →
      (poolRun evs a).handshakeOK = true ∧ (poolRun evs a).trialOK = true) ∧
    (∀ handshake trial a, handshake a = false →
      (vetCandidate handshake trial a).state = .dropped ∧
      ∀ addrs, a ∉ promoted handshake trial addrs) ∧
    (∀ handshake trial addrs,
      promoted handshake trial addrs =
        addrs.filter (fun a => handshake a && trial a)) := by
  refine ⟨?_, ?_, ?_⟩
  · intro evs a
    exact (poolSteps_inv evs (newPoolEntry a) (by intro h; cases h) (by intro h; cases h)).1
  · intro handshake trial a hfail
    constructor
    · rcases ht : trial a with _ | _ <;>
        simp [vetCandidate, poolRun, poolStep, newPoolEntry, hfail, ht]
    · intro addrs hmem
      have hact := List.of_mem_filter hmem
      have : (handshake a && trial a) = true :=
        (vetCandidate_active handshake trial a).mp (by simpa using hact)
      rw [hfail] at this
      simp at this
  · intro handshake trial addrs
    apply List.filter_congr
    intro a _
    rcases hh : handshake a with _ | _ <;> rcases ht : trial a with _ | _ <;>
      simp [vetCandidate_active, vetCandidate, poolRun, poolStep, newPoolEntry, hh, ht]

/-- Witness for C7: a failing handshake leaves the candidate dropped, and on
a concrete batch of 10 discovered candidates of which 7 fail the handshake,
exactly 3 are promoted. -/
theorem serverPool_active_requires_handshake_witness :
    (vetCandidate (fun _ => false) (fun _ => true) "x").state = .dropped ∧
    promoted (fun a => decide (a = "a0" ∨ a = "a1" ∨ a = "a2")) (fun _ => true)
      ["a0", "a1", "a2", "a3", "a4", "a5", "a6", "a7", "a8", "a9"] =
      (["a0", "a1", "a2", "a3", "a4", "a5", "a6", "a7", "a8", "a9"].filter
        (fun a => decide (a = "a0" ∨ a = "a1" ∨ a = "a2") && true)) ∧
    (promoted (fun a => decide (a = "a0" ∨ a = "a1" ∨ a = "a2")) (fun _ => true)
      ["a0", "a1", "a2", "a3", "a4", "a5", "a6", "a7", "a8", "a9"]).length = 3 :=
  ⟨(serverPool_active_requires_handshake.2.1 (fun _ => false) (fun _ => true) "x" rfl).1,
   serverPool_active_requires_handshake.2.2
     (fun a => decide (a = "a0" ∨ a = "a1" ∨ a = "a2")) (fun _ => true)
     ["a0", "a1", "a2", "a3", "a4", "a5", "a6", "a7", "a8", "a9"],
   by decide⟩

/-- Helper: the selection preference is irreflexive. -/
theorem PrefP_irrefl (p : DistPeer) : ¬ PrefP p p := by
  rintro (h | ⟨_, h⟩) <;> exact lt_irrefl _ h

/-- Helper: the selection preference is transitive. -/
theorem PrefP_trans (p q r : DistPeer) (h1 : PrefP p q) (h2 : PrefP q r) : PrefP p r := by
  rcases h1 with h1 | ⟨h1a, h1b⟩ <;> rcases h2 with h2 | ⟨h2a, h2b⟩
  · exact Or.inl (h1.trans h2)
  · exact Or.inl (h2a ▸ h1)
  · exact Or.inl (h1a ▸ h2)
  · exact Or.inr ⟨h1a.trans h2a, h2b.trans h1b⟩

/-- Helper: correctness of the Distributor's peer selection — a returned
peer is an eligible member no eligible candidate strictly beats (lowest
load-to-capacity ratio, ties by best score), and `none` means no candidate
is eligible. -/
theorem selectBest_spec (canSend : DistPeer → Bool) (cost : Nat) (l : List DistPeer) :
    (∀ p, selectBest canSend cost l = some p →
      p ∈ l ∧ eligible canSend cost p = true ∧
      ∀ q ∈ l, eligible canSend cost q = true → ¬ PrefP q p) ∧
    (selectBest canSend cost l = none → ∀ q ∈ l, eligible canSend cost q = false) := by
  induction l with
  | nil =>
    constructor
    · intro p h
      cases h
    · intro _ q hq
      cases hq
  | cons x xs ih =>
    constructor
    · intro p h
      rcases hrec : selectBest canSend cost xs with _ | q
      · simp only [selectBest, hrec] at h
        by_cases hx : eligible canSend cost x = true
        · rw [if_pos hx] at h
          injection h with h
          subst h
          refine ⟨List.mem_cons_self x xs, hx, ?_⟩
          intro q hq hqe
          rcases List.mem_cons.mp hq with hq' | hq'
          · subst hq'
            exact PrefP_irrefl q
          · have hfalse := ih.2 hrec q hq'
            rw [hqe] at hfalse
            cases hfalse
        · rw [if_neg hx] at h
          cases h
      · simp only [selectBest, hrec] at h
        have hq := ih.1 q hrec
        by_cases hx : eligible canSend cost x = true ∧ PrefP x q
        · rw [if_pos hx] at h
          injection h with h
          subst h
          refine ⟨List.mem_cons_self x xs, hx.1, ?_⟩
          intro r hr hre
          rcases List.mem_cons.mp hr with hr' | hr'
          · subst hr'
            exact PrefP_irrefl r
          · intro hpref
            exact hq.2.2 r hr' hre (PrefP_trans r x q hpref hx.2)
        · rw [if_neg hx] at h
          injection h with h
          subst h
          refine ⟨List.mem_cons_of_mem x hq.1, hq.2.1, ?_⟩
          intro r hr hre
          rcases List.mem_cons.mp hr with hr' | hr'
          · subst hr'
            intro hpq
            exact hx ⟨hre, hpq⟩
          · exact hq.2.2 r hr' hre
    · intro h q hq
      rcases hrec : selectBest canSend cost xs with _ | q2
      · simp only [selectBest, hrec] at h
        by_cases hx : eligible canSend cost x = true
        · rw [if_pos hx] at h
          cases h
        · rcases List.mem_cons.mp hq with hq' | hq'
          · subst hq'
            exact Bool.eq_false_iff.mpr hx
          · exact ih.2 hrec q hq'
      · simp only [selectBest, hrec] at h
        by_cases hx : eligible canSend cost x = true ∧ PrefP x q2
        · rw [if_pos hx] at h
          cases h
        · rw [if_neg hx] at h
          cases h

/-- Helper: the re-evaluation pass partitions the queue in submission
order: the still-queued entries and the assigned entries are order-preserving
subsequences of the queue, and together exhaust it. -/
theorem rescan_queue (queue : List DistEntry) (peers : List DistPeer) :
    (rescan queue peers).2.1.Sublist queue ∧
    ((rescan queue peers).1.map Prod.fst).Sublist queue ∧
    (rescan queue peers).1.length + (rescan queue peers).2.1.length = queue.length := by
  induction queue generalizing peers with
  | nil =>
    simp [rescan]
  | cons e es ih =>
    rcases hsel : selectBest e.canSend e.cost peers with _ | p
    · have he : rescan (e :: es) peers =
          ((rescan es peers).1, e :: (rescan es peers).2.1, (rescan es peers).2.2) := by
        simp [rescan, hsel]
      rw [he]
      have h := ih peers
      exact ⟨List.Sublist.cons₂ e h.1, List.Sublist.cons e h.2.1, by simp; omega⟩
    · have he : rescan (e :: es) peers =
          ((e, p) :: (rescan es (assignCap p.id e.cost peers)).1,
            (rescan es (assignCap p.id e.cost peers)).2.1,
            (rescan es (assignCap p.id e.cost peers)).2.2) := by
        simp [rescan, hsel]
      rw [he]
      have h := ih (assignCap p.id e.cost peers)
      exact ⟨List.Sublist.cons e h.1, by simpa using List.Sublist.cons₂ e h.2.1,
        by simp; omega⟩

/-- C5: on every peer-set change or request completion, the Request
Distributor scans pending requests in submission order (oldest first); for
each request it evaluates the canSend predicate against every peer with free
capacity, and among the eligible peers it assigns the one with the lowest
current load-to-capacity ratio, breaking ties by best recent score; when no
eligible peer exists the request remains queued rather than failing. -/
theorem distributor_selection (canSend : DistPeer → Bool) (cost : Nat)
    (peers : List DistPeer) :
    (∀ p, selectBest canSend cost peers = some p →
      p ∈ peers ∧ eligible canSend cost p = true ∧
      ∀ q ∈ peers, eligible canSend cost q = true → ¬ PrefP q p) ∧
    (selectBest canSend cost peers = none →
      ∀ q ∈ peers, eligible canSend cost q = false) ∧
    (∀ queue : List DistEntry,
      (rescan queue peers).2.1.Sublist queue ∧
      ((rescan queue peers).1.map Prod.fst).Sublist queue ∧
      (rescan queue peers).1.length + (rescan queue peers).2.1.length = queue.length) ∧
    (∀ (e : DistEntry) (es : List DistEntry), selectBest e.canSend e.cost peers = none →
      (rescan (e :: es) peers).2.1 = e :: (rescan es peers).2.1) := by
  refine ⟨(selectBest_spec canSend cost peers).1, (selectBest_spec canSend cost peers).2,
    fun queue => rescan_queue queue peers, ?_⟩
  intro e es hsel
  simp [rescan, hsel]

/-- Witness for C5: among two peers with loads one-half and one-quarter of
their budgets, selection picks the less-loaded one, and it is eligible. -/
theorem distributor_selection_witness :
    { id := "p2", maxCap := 4, freeCap := 3, score := 5 } ∈
      [{ id := "p1", maxCap := 2, freeCap := 1, score := 0 },
        ({ id := "p2", maxCap := 4, freeCap := 3, score := 5 } : DistPeer)] ∧
    eligible (fun _ => true) 1 { id := "p2", maxCap := 4, freeCap := 3, score := 5 } = true :=
  have h := (distributor_selection (fun _ => true) 1
    [{ id := "p1", maxCap := 2, freeCap := 1, score := 0 },
      { id := "p2", maxCap := 4, freeCap := 3, score := 5 }]).1
    { id := "p2", maxCap := 4, freeCap := 3, score := 5 }
    (by norm_num [selectBest, eligible, PrefP, DistPeer.ratio, DistPeer.load])
  ⟨h.1, h.2.1⟩

end NetworkChain
